import Mathlib

/-!
Verification development for the MCPP lexical analyzer
(src/Lexical Analyzer/src/lexer.rs).

The lexer is embedded shallowly: the source text is a list of characters,
each regex of the pattern table is translated into an executable recognizer
anchored at the head of the remaining input, and the tokenize loop is a
fuel-indexed state transformer over the lexer record.  The fuel variant of
the loop reduces definitionally, so concrete runs can be settled by rfl or
decide; a separate theorem shows the chosen fuel is always sufficient.

Rust regex semantics relevant here: a word character is an ASCII letter,
digit or underscore (inputs in scope are ASCII); the assertion \x5cb holds
between a word and a non-word character, with the position before the start
of the searched text counting as non-word; the dot matches any character
except a newline; negated character classes do match a newline.  The code
re-slices the source at the cursor and keeps a match only if it starts at
offset zero of the slice, so each regex is modelled as an anchored matcher
whose left-context character is the parameter prev (always none for the
re-slicing implementation).
-/

namespace MCPP

/-- Token kinds, mirroring enum TokenType of lexer.rs. -/
inductive TokenType where
  | Int
  | Float
  | Char
  | Bool
  | String
  | If
  | Else
  | While
  | For
  | Return
  | Include
  | Define
  | Plus
  | Minus
  | Multiply
  | Divide
  | Modulo
  | Assign
  | Equal
  | NotEqual
  | LessThan
  | GreaterThan
  | LessEqual
  | GreaterEqual
  | LogicalAnd
  | LogicalOr
  | Increment
  | Decrement
  | Semicolon
  | Comma
  | LeftParen
  | RightParen
  | LeftBrace
  | RightBrace
  | LeftBracket
  | RightBracket
  | IntegerLiteral
  | FloatLiteral
  | CharLiteral
  | StringLiteral
  | BoolLiteral
  | Identifier
  | Comment
  | EOF
deriving DecidableEq, Repr

/-- Token record, mirroring struct Token of lexer.rs. -/
structure Token where
  token_type : TokenType
  lexeme : String
  line : Nat
  column : Nat
deriving DecidableEq, Repr

/-- Symbol-table entry, mirroring struct Symbol of lexer.rs. -/
structure Symbol where
  name : String
  symbol_type : String
  data_type : String
  scope : String
  line : Nat
deriving DecidableEq, Repr

/-- Lexer state, mirroring struct Lexer of lexer.rs together with the
symbols vector of its embedded SymbolTable.  The position field is the
cursor into the character list. -/
structure Lexer where
  source : List Char
  position : Nat
  line : Nat
  column : Nat
  tokens : List Token
  symbols : List Symbol
  current_scope : String
  last_type_keyword : Option String
deriving DecidableEq, Repr

/-- Structured form of the LexicalError diagnostic built at lexer.rs
lines 549 to 552: offending character, line, column. -/
structure LexError where
  ch : Char
  line : Nat
  column : Nat
deriving DecidableEq, Repr

/-- Result of a run: success, a single lexical error, a panic of one of the
two unwrap sites, or fuel exhaustion of the embedding loop (proved
unreachable below). -/
inductive Outcome where
  | ok
  | err (e : LexError)
  | panicked
  | fuelOut
deriving DecidableEq, Repr

/-- ASCII word character, the class \x5cw of the regexes on ASCII input. -/
def isWordChar (c : Char) : Bool :=
  c.isAlpha || c.isDigit || c = '_'

/-- Word-ness of an optional left context character; the position before
the start of the text counts as non-word. -/
def isWordOpt : Option Char → Bool
  | none => false
  | some c => isWordChar c

/-- ASCII whitespace as recognized by char::is_whitespace in Rust:
space and the controls U+0009 through U+000D. -/
def isWsRust (c : Char) : Bool :=
  c = ' ' || (9 ≤ c.toNat && c.toNat ≤ 13)

/-- Scan of the body of a block comment: consume up to and including the
first star-slash terminator, the lazy match of the regex. -/
def blockEnd : List Char → Option (List Char)
  | '*' :: '/' :: _ => some ['*', '/']
  | c :: rest => (blockEnd rest).map (fun t => c :: t)
  | [] => none

/-- Block comment regex of lexer.rs line 193. -/
def matchBlockComment : List Char → Option (List Char)
  | '/' :: '*' :: rest => (blockEnd rest).map (fun t => '/' :: '*' :: t)
  | _ => none

/-- Line comment regex of lexer.rs line 199: two slashes then everything
up to the next newline. -/
def matchLineComment : List Char → Option (List Char)
  | '/' :: '/' :: rest => some ('/' :: '/' :: rest.takeWhile (fun c => c != '\n'))
  | _ => none

/-- Body of a string literal after the opening quote: ends at the first
unescaped quote; a backslash escapes any character except a newline. -/
def strBody : List Char → Option (List Char)
  | '"' :: _ => some ['"']
  | '\\' :: c :: rest =>
    if c = '\n' then none else (strBody rest).map (fun t => '\\' :: c :: t)
  | ['\\'] => none
  | c :: rest => (strBody rest).map (fun t => c :: t)
  | [] => none

/-- String literal regex of lexer.rs line 205. -/
def matchStrLit : List Char → Option (List Char)
  | '"' :: rest => (strBody rest).map (fun t => '"' :: t)
  | _ => none

/-- Character literal regex of lexer.rs line 211: exactly one plain
character other than quote or backslash, or one backslash escape whose
escaped character is not a newline. -/
def matchCharLit : List Char → Option (List Char)
  | '\'' :: '\\' :: c :: '\'' :: _ =>
    if c = '\n' then none else some ['\'', '\\', c, '\'']
  | '\'' :: '\\' :: _ => none
  | '\'' :: c :: '\'' :: _ =>
    if c = '\'' then none else some ['\'', c, '\'']
  | _ => none

/-- Exponent continuation of a float literal: a well-formed exponent is
consumed greedily, anything else contributes nothing (the optional group
of the regex backtracks to the empty match). -/
def expPart : List Char → List Char
  | e :: r3 =>
    if e = 'e' ∨ e = 'E' then
      match r3 with
      | c :: r4 =>
        if c = '+' ∨ c = '-' then
          if (r4.takeWhile Char.isDigit).isEmpty then []
          else e :: c :: r4.takeWhile Char.isDigit
        else
          if (r3.takeWhile Char.isDigit).isEmpty then []
          else e :: r3.takeWhile Char.isDigit
      | [] => []
    else []
  | [] => []

/-- Float literal regex of lexer.rs line 217: digits, dot, digits, then an
optional well-formed exponent part. -/
def matchFloat (s : List Char) : Option (List Char) :=
  if (s.takeWhile Char.isDigit).isEmpty then none
  else
    match s.drop (s.takeWhile Char.isDigit).length with
    | '.' :: r2 =>
      if (r2.takeWhile Char.isDigit).isEmpty then none
      else
        some (s.takeWhile Char.isDigit ++
          '.' :: (r2.takeWhile Char.isDigit ++
            expPart (r2.drop (r2.takeWhile Char.isDigit).length)))
    | _ => none

/-- Integer literal regex of lexer.rs line 223: one or more digits. -/
def matchInt (s : List Char) : Option (List Char) :=
  if (s.takeWhile Char.isDigit).isEmpty then none
  else some (s.takeWhile Char.isDigit)

/-- A whole word match: the keyword list w bracketed by word boundaries,
with prev the character just before the anchor position.  Models a regex
of the shape \x5cb w \x5cb anchored at the current offset. -/
def kwMatch (w : List Char) (prev : Option Char) (s : List Char) : Option (List Char) :=
  if w.isPrefixOf s
      && (isWordOpt prev != isWordChar (w.headD ' '))
      && (isWordChar (w.getLastD ' ') != isWordOpt ((s.drop w.length).head?))
  then some w else none

/-- Bool literal regex of lexer.rs line 229: true or false as whole words. -/
def matchBool (prev : Option Char) (s : List Char) : Option (List Char) :=
  match kwMatch "true".toList prev s with
  | some l => some l
  | none => kwMatch "false".toList prev s

/-- Plain literal regex: operators and delimiters. -/
def litMatch (w : List Char) (s : List Char) : Option (List Char) :=
  if w.isPrefixOf s then some w else none

/-- Identifier regex of lexer.rs line 387: a letter or underscore followed
by the longest run of word characters. -/
def matchIdent : List Char → Option (List Char)
  | c :: rest =>
    if c.isAlpha || c = '_' then some (c :: rest.takeWhile isWordChar) else none
  | [] => none

/-- One rule of the pattern table: the token kind together with the shape
of its recognizer. -/
inductive Rule where
  | blockComment
  | lineComment
  | strLit
  | charLit
  | floatLit
  | intLit
  | boolLit
  | lit (tt : TokenType) (w : List Char)
  | kw (tt : TokenType) (w : List Char)
  | ident
deriving DecidableEq, Repr

/-- Token kind produced by a rule, as paired in the pattern table. -/
def ruleType : Rule → TokenType
  | .blockComment => .Comment
  | .lineComment => .Comment
  | .strLit => .StringLiteral
  | .charLit => .CharLiteral
  | .floatLit => .FloatLiteral
  | .intLit => .IntegerLiteral
  | .boolLit => .BoolLiteral
  | .lit tt _ => tt
  | .kw tt _ => tt
  | .ident => .Identifier

/-- Run the recognizer of a rule at the current offset; prev is the
character just before the offset, consulted only by word boundaries. -/
def matchRule : Rule → Option Char → List Char → Option (List Char)
  | .blockComment, _, s => matchBlockComment s
  | .lineComment, _, s => matchLineComment s
  | .strLit, _, s => matchStrLit s
  | .charLit, _, s => matchCharLit s
  | .floatLit, _, s => matchFloat s
  | .intLit, _, s => matchInt s
  | .boolLit, prev, s => matchBool prev s
  | .lit _ w, _, s => litMatch w s
  | .kw _ w, prev, s => kwMatch w prev s
  | .ident, _, s => matchIdent s

/-- All rules before the final identifier rule, in the exact order pushed
by Lexer::initialize of lexer.rs lines 189 to 382. -/
def preRules : List Rule :=
  [ .blockComment,
    .lineComment,
    .strLit,
    .charLit,
    .floatLit,
    .intLit,
    .boolLit,
    .lit .LogicalAnd "&&".toList,
    .lit .LogicalOr "||".toList,
    .lit .Equal "==".toList,
    .lit .NotEqual "!=".toList,
    .lit .LessEqual "<=".toList,
    .lit .GreaterEqual ">=".toList,
    .lit .Increment "++".toList,
    .lit .Decrement "--".toList,
    .lit .Plus "+".toList,
    .lit .Minus "-".toList,
    .lit .Multiply "*".toList,
    .lit .Divide "/".toList,
    .lit .Modulo "%".toList,
    .lit .Assign "=".toList,
    .lit .LessThan "<".toList,
    .lit .GreaterThan ">".toList,
    .lit .Semicolon ";".toList,
    .lit .Comma ",".toList,
    .lit .LeftParen "(".toList,
    .lit .RightParen ")".toList,
    .lit .LeftBrace "\x7b".toList,
    .lit .RightBrace "\x7d".toList,
    .lit .LeftBracket "[".toList,
    .lit .RightBracket "]".toList,
    .kw .Include "#include".toList,
    .kw .Define "#define".toList,
    .kw .Int "int".toList,
    .kw .Float "float".toList,
    .kw .Char "char".toList,
    .kw .Bool "bool".toList,
    .kw .String "string".toList,
    .kw .If "if".toList,
    .kw .Else "else".toList,
    .kw .While "while".toList,
    .kw .For "for".toList,
    .kw .Return "return".toList ]

/-- The full ordered pattern table: the identifier rule is last. -/
def patterns : List Rule :=
  preRules ++ [Rule.ident]

/-- First rule of the table whose recognizer matches at the current
offset, with its lexeme; mirrors the pattern loop of lexer.rs lines
454 to 544 (a find whose start is not zero is rejected there, which is
the same as the anchored test). -/
def findMatch : List Rule → Option Char → List Char → Option (Rule × List Char)
  | [], _, _ => none
  | r :: rs, prev, s =>
    match matchRule r prev s with
    | some l => some (r, l)
    | none => findMatch rs prev s

/-- Reserved-word re-check of Lexer::check of lexer.rs lines 409 to 425,
applied to lexemes matched by the identifier rule. -/
def checkKeyword (l : List Char) : Option TokenType :=
  if l = "int".toList then some .Int
  else if l = "float".toList then some .Float
  else if l = "char".toList then some .Char
  else if l = "bool".toList then some .Bool
  else if l = "string".toList then some .String
  else if l = "if".toList then some .If
  else if l = "else".toList then some .Else
  else if l = "while".toList then some .While
  else if l = "for".toList then some .For
  else if l = "return".toList then some .Return
  else if l = "#include".toList then some .Include
  else if l = "#define".toList then some .Define
  else none

/-- Data type name of a type keyword, lexer.rs lines 428 to 437. -/
def getDataType : TokenType → Option String
  | .Int => some "int"
  | .Float => some "float"
  | .Char => some "char"
  | .Bool => some "bool"
  | .String => some "string"
  | _ => none

/-- The five control keyword kinds of the reset arm at lexer.rs 492 to 496. -/
def ctrlKw : TokenType → Bool
  | .If => true
  | .Else => true
  | .While => true
  | .For => true
  | .Return => true
  | _ => false

/-- Advance cursor, line and column over the characters of a lexeme,
mirroring the per-character walks at lexer.rs 466 to 474 and 530 to 538. -/
def advanceOver : Lexer → List Char → Lexer
  | st, [] => st
  | st, c :: cs =>
    advanceOver
      (if c = '\n' then
        { st with line := st.line + 1, column := 1, position := st.position + 1 }
      else
        { st with column := st.column + 1, position := st.position + 1 }) cs

/-- Classification step of lexer.rs lines 480 to 518: remember a type
keyword, and for an identifier match either reclassify it through the
reserved-word re-check or record a symbol and consume the pending type. -/
def classifySt (st : Lexer) (r : Rule) (l : List Char) : TokenType × Lexer :=
  let st1 := match getDataType (ruleType r) with
    | some dt => { st with last_type_keyword := some dt }
    | none => st
  if ruleType r = .Identifier then
    match checkKeyword l with
    | some k => (k, if ctrlKw k then { st1 with last_type_keyword := none } else st1)
    | none =>
      (TokenType.Identifier,
        { st1 with
            symbols := st1.symbols ++
              [⟨l.asString, "variable", st1.last_type_keyword.getD "unknown",
                st1.current_scope, st.line⟩],
            last_type_keyword := none })
  else (ruleType r, st1)

/-- Handling of one accepted match: comments are consumed silently, any
other match is classified, emitted as a token and consumed. -/
def applyMatch (st : Lexer) (r : Rule) (l : List Char) : Lexer :=
  if ruleType r = .Comment then advanceOver st l
  else
    let p := classifySt st r l
    advanceOver
      { p.2 with tokens := p.2.tokens ++ [⟨p.1, l.asString, st.line, st.column⟩] } l

/-- Variant of classifySt with the reserved-word re-check removed: an
identifier match is always recorded as an identifier symbol. -/
def classifyStNR (st : Lexer) (r : Rule) (l : List Char) : TokenType × Lexer :=
  let st1 := match getDataType (ruleType r) with
    | some dt => { st with last_type_keyword := some dt }
    | none => st
  if ruleType r = .Identifier then
    (TokenType.Identifier,
      { st1 with
          symbols := st1.symbols ++
            [⟨l.asString, "variable", st1.last_type_keyword.getD "unknown",
              st1.current_scope, st.line⟩],
          last_type_keyword := none })
  else (ruleType r, st1)

/-- applyMatch with the reserved-word re-check removed. -/
def applyMatchNR (st : Lexer) (r : Rule) (l : List Char) : Lexer :=
  if ruleType r = .Comment then advanceOver st l
  else
    let p := classifyStNR st r l
    advanceOver
      { p.2 with tokens := p.2.tokens ++ [⟨p.1, l.asString, st.line, st.column⟩] } l

/-- Whitespace skipping of lexer.rs lines 392 to 406.  The fuel argument
makes the recursion structural; none models the unwrap panic or exhausted
fuel and is proved unreachable for the fuel used below. -/
def skipWs : Nat → Lexer → Option Lexer
  | 0, _ => none
  | f + 1, st =>
    if st.position < st.source.length then
      match st.source.get? st.position with
      | none => none
      | some ch =>
        if ch = '\n' then
          skipWs f { st with line := st.line + 1, column := 1, position := st.position + 1 }
        else if isWsRust ch then
          skipWs f { st with column := st.column + 1, position := st.position + 1 }
        else some st
    else some st

/-- Append the terminating EOF token, lexer.rs lines 557 to 562. -/
def pushEOF (st : Lexer) : Lexer × Outcome :=
  ({ st with tokens := st.tokens ++ [⟨TokenType.EOF, "EOF", st.line, st.column⟩] }, .ok)

/-- The tokenize loop of lexer.rs lines 440 to 565, parameterized by the
match handler and by the left-context function handed to the recognizers
(the implementation re-slices, so its left context is always none). -/
def lexLoopG (app : Lexer → Rule → List Char → Lexer)
    (prevOf : Lexer → Option Char) : Nat → Lexer → Lexer × Outcome
  | 0, st => (st, Outcome.fuelOut)
  | f + 1, st =>
    if st.position < st.source.length then
      match skipWs (st.source.length - st.position + 1) st with
      | none => (st, Outcome.panicked)
      | some st1 =>
        if st1.position < st1.source.length then
          match findMatch patterns (prevOf st1) (st1.source.drop st1.position) with
          | some rl => lexLoopG app prevOf f (app st1 rl.1 rl.2)
          | none =>
            match st1.source.get? st1.position with
            | some ch => (st1, Outcome.err ⟨ch, st1.line, st1.column⟩)
            | none => (st1, Outcome.panicked)
        else pushEOF st1
    else pushEOF st

/-- Fresh lexer state for a source text, Lexer::new of lexer.rs. -/
def initLexer (src : String) : Lexer :=
  ⟨src.toList, 0, 1, 1, [], [], "global", none⟩

/-- The full run of Lexer::tokenize on a source text: final lexer state
plus outcome. -/
def tokenize (src : String) : Lexer × Outcome :=
  lexLoopG applyMatch (fun _ => none) (src.toList.length + 1) (initLexer src)

/-- The run of the lexer with the reserved-word re-check removed. -/
def tokenizeNoRecheck (src : String) : Lexer × Outcome :=
  lexLoopG applyMatchNR (fun _ => none) (src.toList.length + 1) (initLexer src)

/-- Modelled from the spec, design note on avoiding re-scanning: the left
context seen by a recognizer anchored at the cursor directly against the
full buffer is the character just before the cursor. -/
def prevAt (st : Lexer) : Option Char :=
  if st.position = 0 then none else st.source.get? (st.position - 1)

/-- Modelled from the spec, design note on avoiding re-scanning: the same
scanner but with every recognizer anchored at the cursor offset against
the full buffer, so word boundaries see the true left context. -/
def tokenizeAnchored (src : String) : Lexer × Outcome :=
  lexLoopG applyMatch prevAt (src.toList.length + 1) (initLexer src)

/-- Accessor Lexer::get of the token vector, lexer.rs lines 568 to 570:
it exposes whatever the run accumulated, also after a failed run. -/
def getTokens (st : Lexer) : List Token :=
  st.tokens

/-- Accessor for the symbol vector, lexer.rs lines 573 to 575. -/
def getSymbols (st : Lexer) : List Symbol :=
  st.symbols

/-- Predicate for the terminal token kind. -/
def isEOFTok (t : Token) : Bool :=
  t.token_type == TokenType.EOF

/-- Literal word carried by a rule; a placeholder for the matchers that
carry none, used to state that the table never holds an empty word. -/
def ruleW : Rule → List Char
  | .lit _ w => w
  | .kw _ w => w
  | _ => ['x']

/-- Claim C1, evaluation at the failing input: on the source text
consisting of int, if and y, the run succeeds and records y with data
type int, not unknown; the matched control keyword leaves the pending
declared type untouched, because the reset of the pending type sits only
in the identifier-reclassification branch, which control keywords never
reach since their own whole-word rules match first. -/
theorem claim1_eval :
    (tokenize "int if y;").2 = Outcome.ok ∧
    getSymbols (tokenize "int if y;").1 =
      [⟨"y", "variable", "int", "global", 1⟩] :=
  ⟨rfl, rfl⟩

/-- Claim C2, counterexample: tokenization of the text x at y fails, yet
the accessors still expose the token and the symbol accumulated before
the error, so the caller does obtain partial output from the failed run. -/
theorem claim2_counterexample :
    (tokenize "x @ y;").2 = Outcome.err ⟨'@', 1, 3⟩ ∧
    getTokens (tokenize "x @ y;").1 ≠ [] ∧
    getSymbols (tokenize "x @ y;").1 ≠ [] :=
  ⟨rfl, by decide, by decide⟩

/-- Claim C3, evaluation at the failing input: a preprocessor keyword at
the start of the source, or after whitespace, is never recognized; the
word-boundary assertion before the hash character cannot hold at the
start of a re-sliced remainder, so tokenization fails with a lexical
error on the hash character. -/
theorem claim3_eval :
    (tokenize "#include").2 = Outcome.err ⟨'#', 1, 1⟩ ∧
    (tokenize "#define").2 = Outcome.err ⟨'#', 1, 1⟩ ∧
    (tokenize " #include").2 = Outcome.err ⟨'#', 1, 2⟩ :=
  ⟨rfl, rfl, rfl⟩

/-- Claim C4: the declaration of a and b yields exactly two symbols, the
first with data type int and the second with data type unknown, the
pending declared type being consumed by the first identifier only. -/
theorem claim4_run :
    (tokenize "int a, b;").2 = Outcome.ok ∧
    getSymbols (tokenize "int a, b;").1 =
      [⟨"a", "variable", "int", "global", 1⟩,
       ⟨"b", "variable", "unknown", "global", 1⟩] :=
  ⟨rfl, rfl⟩

/-- Claim C5: the end-to-end scenario on the declaration of x produces
exactly the four expected tokens and the single expected symbol. -/
theorem claim5_run :
    (tokenize "int x;").2 = Outcome.ok ∧
    getTokens (tokenize "int x;").1 =
      [⟨.Int, "int", 1, 1⟩, ⟨.Identifier, "x", 1, 5⟩,
       ⟨.Semicolon, ";", 1, 6⟩, ⟨.EOF, "EOF", 1, 7⟩] ∧
    getSymbols (tokenize "int x;").1 =
      [⟨"x", "variable", "int", "global", 1⟩] :=
  ⟨rfl, rfl, rfl⟩

/-- Claim C6: tokenization of the text x at y fails with a lexical error
reporting the at sign at line 1, column 3. -/
theorem claim6_run :
    (tokenize "x @ y;").2 = Outcome.err ⟨'@', 1, 3⟩ :=
  rfl

/-- Claim C8, counterexample: the implemented re-slicing strategy and the
anchored strategy disagree on the text x immediately followed by the
include keyword, so the optimization is observable. -/
theorem claim8_counterexample :
    tokenize "x#include" ≠ tokenizeAnchored "x#include" := by
  decide

/-- Claim C8, amended: the two strategies are not observationally equal;
a word boundary sees different left context.  On the text x followed
directly by the include keyword, re-slicing fails with a lexical error on
the hash character while anchored matching succeeds and recognizes the
include keyword. -/
theorem claim8_amended :
    (tokenize "x#include").2 = Outcome.err ⟨'#', 1, 2⟩ ∧
    (tokenizeAnchored "x#include").2 = Outcome.ok ∧
    getTokens (tokenizeAnchored "x#include").1 =
      [⟨.Identifier, "x", 1, 1⟩, ⟨.Include, "#include", 1, 2⟩,
       ⟨.EOF, "EOF", 1, 10⟩] :=
  ⟨rfl, rfl, rfl⟩

/-- advanceOver touches only cursor, line and column; the cursor moves by
the length of the consumed lexeme. -/
theorem advanceOver_spec (l : List Char) (st : Lexer) :
    (advanceOver st l).source = st.source ∧
    (advanceOver st l).tokens = st.tokens ∧
    (advanceOver st l).symbols = st.symbols ∧
    (advanceOver st l).current_scope = st.current_scope ∧
    (advanceOver st l).last_type_keyword = st.last_type_keyword ∧
    (advanceOver st l).position = st.position + l.length := by
  induction l generalizing st with
  | nil => simp [advanceOver]
  | cons c cs ih =>
    by_cases hc : c = '\n' <;>
      simp only [advanceOver, hc, if_true, if_false, ite_true, ite_false] <;>
      refine ⟨(ih _).1, (ih _).2.1, (ih _).2.2.1, (ih _).2.2.2.1, (ih _).2.2.2.2.1, ?_⟩ <;>
      rw [(ih _).2.2.2.2.2] <;> simp <;> omega

/-- skipWs touches only cursor, line and column, and never moves the
cursor backwards. -/
theorem skipWs_spec : ∀ (f : Nat) (st st1 : Lexer), skipWs f st = some st1 →
    st1.source = st.source ∧
    st1.tokens = st.tokens ∧
    st1.symbols = st.symbols ∧
    st1.current_scope = st.current_scope ∧
    st1.last_type_keyword = st.last_type_keyword ∧
    st.position ≤ st1.position := by
  intro f
  induction f with
  | zero => intro st st1 h; exact absurd h (by simp [skipWs])
  | succ f ih =>
    intro st st1 h
    rw [skipWs] at h
    by_cases hp : st.position < st.source.length
    · rw [if_pos hp] at h
      cases hg : st.source.get? st.position with
      | none => rw [hg] at h; exact absurd h (by simp)
      | some ch =>
        rw [hg] at h
        dsimp only at h
        by_cases hn : ch = '\n'
        · rw [if_pos hn] at h
          have hh := ih _ _ h
          simp only at hh
          exact ⟨hh.1, hh.2.1, hh.2.2.1, hh.2.2.2.1, hh.2.2.2.2.1, by
            have := hh.2.2.2.2.2; simp at this; omega⟩
        · rw [if_neg hn] at h
          by_cases hw : isWsRust ch
          · rw [if_pos hw] at h
            have hh := ih _ _ h
            simp only at hh
            exact ⟨hh.1, hh.2.1, hh.2.2.1, hh.2.2.2.1, hh.2.2.2.2.1, by
              have := hh.2.2.2.2.2; simp at this; omega⟩
          · rw [if_neg hw] at h
            cases h
            exact ⟨rfl, rfl, rfl, rfl, rfl, Nat.le_refl _⟩
    · rw [if_neg hp] at h
      cases h
      exact ⟨rfl, rfl, rfl, rfl, rfl, Nat.le_refl _⟩

/-- With more fuel than remaining characters, skipWs cannot fail. -/
theorem skipWs_some : ∀ (f : Nat) (st : Lexer),
    st.source.length - st.position < f → ∃ st1, skipWs f st = some st1 := by
  intro f
  induction f with
  | zero => intro st h; omega
  | succ f ih =>
    intro st h
    rw [skipWs]
    by_cases hp : st.position < st.source.length
    · rw [if_pos hp]
      cases hg : st.source.get? st.position with
      | none => exact absurd (List.get?_eq_none.mp hg) (by omega)
      | some ch =>
        dsimp only
        by_cases hn : ch = '\n'
        · rw [if_pos hn]
          exact ih _ (by simp; omega)
        · rw [if_neg hn]
          by_cases hw : isWsRust ch
          · rw [if_pos hw]
            exact ih _ (by simp; omega)
          · rw [if_neg hw]
            exact ⟨st, rfl⟩
    · rw [if_neg hp]
      exact ⟨st, rfl⟩

/-- The rule returned by findMatch is in the table and its recognizer
produced the lexeme. -/
theorem findMatch_mem : ∀ (rs : List Rule) (prev : Option Char) (s : List Char)
    (r : Rule) (l : List Char), findMatch rs prev s = some (r, l) →
    r ∈ rs ∧ matchRule r prev s = some l := by
  intro rs
  induction rs with
  | nil => intro prev s r l h; exact absurd h (by simp [findMatch])
  | cons a as ih =>
    intro prev s r l h
    rw [findMatch] at h
    cases hm : matchRule a prev s with
    | some w =>
      rw [hm] at h
      simp only [Option.some.injEq, Prod.mk.injEq] at h
      obtain ⟨rfl, rfl⟩ := h
      exact ⟨List.mem_cons_self a as, hm⟩
    | none =>
      rw [hm] at h
      have hh := ih prev s r l h
      exact ⟨List.mem_cons_of_mem a hh.1, hh.2⟩

/-- If findMatch lands on a rule that occurs only at the very end of the
table, every earlier rule failed to match. -/
theorem findMatch_prior_none : ∀ (rs : List Rule) (r0 : Rule) (prev : Option Char)
    (s l : List Char), r0 ∉ rs → findMatch (rs ++ [r0]) prev s = some (r0, l) →
    ∀ k ∈ rs, matchRule k prev s = none := by
  intro rs
  induction rs with
  | nil => intro r0 prev s l h1 h2 k hk; exact absurd hk (by simp)
  | cons a as ih =>
    intro r0 prev s l h1 h2 k hk
    rw [List.cons_append, findMatch] at h2
    cases hm : matchRule a prev s with
    | some w =>
      rw [hm] at h2
      simp only [Option.some.injEq, Prod.mk.injEq] at h2
      exact absurd (h2.1 ▸ List.mem_cons_self a as) h1
    | none =>
      rw [hm] at h2
      rcases List.mem_cons.mp hk with rfl | hk2
      · exact hm
      · exact ih r0 prev s l (fun hc => h1 (List.mem_cons_of_mem a hc)) h2 k hk2

/-- The pattern table never produces the terminal kind. -/
theorem patterns_ne_eof : ∀ r ∈ patterns, ruleType r ≠ TokenType.EOF := by
  decide

/-- The identifier rule is the only table entry of identifier kind. -/
theorem patterns_ident_unique :
    ∀ r ∈ patterns, ruleType r = TokenType.Identifier → r = Rule.ident := by
  decide

/-- The identifier rule occurs only as the final table entry. -/
theorem ident_not_mem_preRules : Rule.ident ∉ preRules := by
  decide

/-- No literal or keyword rule of the table carries an empty word. -/
theorem patterns_ruleW_ne_nil : ∀ r ∈ patterns, ruleW r ≠ [] := by
  decide

/-- A successful whole-word match returns exactly the word. -/
theorem kwMatch_some {w : List Char} {prev : Option Char} {s l : List Char}
    (h : kwMatch w prev s = some l) : l = w := by
  unfold kwMatch at h
  split at h
  · simp only [Option.some.injEq] at h
    exact h.symm
  · exact absurd h (by simp)

/-- A successful plain literal match returns exactly the word. -/
theorem litMatch_some {w s l : List Char} (h : litMatch w s = some l) : l = w := by
  unfold litMatch at h
  split at h
  · simp only [Option.some.injEq] at h
    exact h.symm
  · exact absurd h (by simp)

/-- Every lexeme accepted by a rule of the table is nonempty, so each
accepted match strictly advances the cursor. -/
theorem matchRule_ne_nil : ∀ r ∈ patterns, ∀ (prev : Option Char) (s l : List Char),
    matchRule r prev s = some l → l ≠ [] := by
  intro r hr prev s l h
  have hw := patterns_ruleW_ne_nil r hr
  cases r with
  | blockComment =>
    simp only [matchRule] at h
    unfold matchBlockComment at h
    split at h
    · rcases Option.map_eq_some'.mp h with ⟨t, _, rfl⟩
      simp
    · exact absurd h (by simp)
  | lineComment =>
    simp only [matchRule] at h
    unfold matchLineComment at h
    split at h
    · simp only [Option.some.injEq] at h
      subst h
      simp
    · exact absurd h (by simp)
  | strLit =>
    simp only [matchRule] at h
    unfold matchStrLit at h
    split at h
    · rcases Option.map_eq_some'.mp h with ⟨t, _, rfl⟩
      simp
    · exact absurd h (by simp)
  | charLit =>
    simp only [matchRule] at h
    unfold matchCharLit at h
    split at h
    · split at h
      · exact absurd h (by simp)
      · simp only [Option.some.injEq] at h
        subst h
        simp
    · exact absurd h (by simp)
    · split at h
      · exact absurd h (by simp)
      · simp only [Option.some.injEq] at h
        subst h
        simp
    · exact absurd h (by simp)
  | floatLit =>
    simp only [matchRule] at h
    unfold matchFloat at h
    split at h
    · exact absurd h (by simp)
    · split at h
      · split at h
        · exact absurd h (by simp)
        · simp only [Option.some.injEq] at h
          subst h
          simp
      · exact absurd h (by simp)
  | intLit =>
    simp only [matchRule] at h
    unfold matchInt at h
    split at h
    · exact absurd h (by simp)
    · rename_i hne
      simp only [Option.some.injEq] at h
      subst h
      intro hnil
      exact hne (by simp [hnil])
  | boolLit =>
    simp only [matchRule] at h
    unfold matchBool at h
    split at h
    · rename_i l2 heq
      simp only [Option.some.injEq] at h
      subst h
      have hl2 := kwMatch_some heq
      subst hl2
      decide
    · have hl2 := kwMatch_some h
      subst hl2
      decide
  | lit tt w =>
    have := litMatch_some (h := h)
    subst this
    exact hw
  | kw tt w =>
    have := kwMatch_some (h := h)
    subst this
    exact hw
  | ident =>
    simp only [matchRule] at h
    unfold matchIdent at h
    split at h
    · split at h
      · simp only [Option.some.injEq] at h
        subst h
        simp
      · exact absurd h (by simp)
    · exact absurd h (by simp)

set_option maxHeartbeats 1000000 in
/-- The reserved-word re-check never yields the terminal kind. -/
theorem checkKeyword_ne_eof {l : List Char} {k : TokenType}
    (h : checkKeyword l = some k) : k ≠ TokenType.EOF := by
  unfold checkKeyword at h
  split_ifs at h
  all_goals
    first
      | exact Option.noConfusion h
      | (injection h with h2; subst h2; decide)

/-- Classification only edits the symbol list and the pending type. -/
theorem classifySt_fields (st : Lexer) (r : Rule) (l : List Char) :
    (classifySt st r l).2.source = st.source ∧
    (classifySt st r l).2.position = st.position ∧
    (classifySt st r l).2.tokens = st.tokens ∧
    (classifySt st r l).2.line = st.line ∧
    (classifySt st r l).2.column = st.column := by
  unfold classifySt
  rcases hdt : getDataType (ruleType r) with _ | dt <;> dsimp only
  · by_cases hid : ruleType r = TokenType.Identifier
    · rw [if_pos hid]
      rcases hck : checkKeyword l with _ | k <;> dsimp only
      · simp
      · split <;> simp
    · rw [if_neg hid]
      simp
  · by_cases hid : ruleType r = TokenType.Identifier
    · rw [if_pos hid]
      rcases hck : checkKeyword l with _ | k <;> dsimp only
      · simp
      · split <;> simp
    · rw [if_neg hid]
      simp

/-- The kind recorded for a token is never the terminal kind, provided
the matched rule itself is not of terminal kind. -/
theorem classifySt_fst_ne_eof (st : Lexer) (r : Rule) (l : List Char)
    (hr : ruleType r ≠ TokenType.EOF) : (classifySt st r l).1 ≠ TokenType.EOF := by
  unfold classifySt
  rcases hdt : getDataType (ruleType r) with _ | dt <;> dsimp only
  · by_cases hid : ruleType r = TokenType.Identifier
    · rw [if_pos hid]
      rcases hck : checkKeyword l with _ | k <;> dsimp only
      · simp
      · have hne := checkKeyword_ne_eof hck
        exact hne
    · rw [if_neg hid]
      simpa using hr
  · by_cases hid : ruleType r = TokenType.Identifier
    · rw [if_pos hid]
      rcases hck : checkKeyword l with _ | k <;> dsimp only
      · simp
      · have hne := checkKeyword_ne_eof hck
        exact hne
    · rw [if_neg hid]
      simpa using hr

/-- Consuming one accepted match keeps the source, and moves the cursor
forward by exactly the length of the lexeme. -/
theorem applyMatch_fields (st : Lexer) (r : Rule) (l : List Char) :
    (applyMatch st r l).source = st.source ∧
    (applyMatch st r l).position = st.position + l.length := by
  unfold applyMatch
  by_cases hc : ruleType r = TokenType.Comment
  · rw [if_pos hc]
    exact ⟨(advanceOver_spec l st).1, (advanceOver_spec l st).2.2.2.2.2⟩
  · rw [if_neg hc]
    constructor
    · rw [(advanceOver_spec l _).1]
      simpa using (classifySt_fields st r l).1
    · rw [(advanceOver_spec l _).2.2.2.2.2]
      simp [(classifySt_fields st r l).2.1]

/-- Consuming one accepted match appends at most one token, whose kind is
the classified kind. -/
theorem applyMatch_tokens_sub (st : Lexer) (r : Rule) (l : List Char) :
    (applyMatch st r l).tokens = st.tokens ∨
    (applyMatch st r l).tokens =
      st.tokens ++ [⟨(classifySt st r l).1, l.asString, st.line, st.column⟩] := by
  unfold applyMatch
  by_cases hc : ruleType r = TokenType.Comment
  · rw [if_pos hc]
    exact Or.inl (advanceOver_spec l st).2.1
  · rw [if_neg hc]
    right
    rw [(advanceOver_spec l _).2.1]
    simp [(classifySt_fields st r l).2.2.1]

/-- Dropping as many elements as takeWhile keeps lands on dropWhile. -/
theorem drop_takeWhile_len (p : Char → Bool) :
    ∀ xs : List Char, xs.drop (xs.takeWhile p).length = xs.dropWhile p := by
  intro xs
  induction xs with
  | nil => simp
  | cons a t ih =>
    by_cases h : p a
    · simp [List.takeWhile_cons, List.dropWhile_cons, h, ih]
    · simp [List.takeWhile_cons, List.dropWhile_cons, h]

/-- The first element surviving dropWhile falsifies the predicate. -/
theorem head_dropWhile_false (p : Char → Bool) :
    ∀ (xs : List Char) (d : Char), (xs.dropWhile p).head? = some d → p d = false := by
  intro xs
  induction xs with
  | nil => intro d h; simp at h
  | cons a t ih =>
    intro d h
    by_cases hp : p a
    · rw [List.dropWhile_cons, if_pos hp] at h
      exact ih d h
    · rw [List.dropWhile_cons, if_neg hp] at h
      simp only [List.head?_cons, Option.some.injEq] at h
      subst h
      simpa using hp

/-- The last element of a list whose elements all satisfy a predicate
satisfies the predicate, for a nonempty list. -/
theorem getLastD_all {p : Char → Bool} : ∀ (l : List Char) (d : Char), l ≠ [] →
    l.all p = true → p (l.getLastD d) = true := by
  intro l
  induction l with
  | nil => intro d h; exact absurd rfl h
  | cons a t ih =>
    intro d h hall
    simp only [List.all_cons, Bool.and_eq_true] at hall
    cases t with
    | nil => simpa using hall.1
    | cons b t2 =>
      rw [List.getLastD_cons]
      exact ih a (by simp) hall.2

/-- Shape of a successful identifier match: the lexeme is the head letter
or underscore followed by the longest run of word characters. -/
theorem matchIdent_some {s l : List Char} (h : matchIdent s = some l) :
    ∃ c rest, s = c :: rest ∧ (c.isAlpha || c = '_') = true ∧
      l = c :: rest.takeWhile isWordChar := by
  cases s with
  | nil => exact absurd h (by simp [matchIdent])
  | cons c rest =>
    simp only [matchIdent] at h
    split at h
    · rename_i hc
      simp only [Option.some.injEq] at h
      exact ⟨c, rest, rfl, hc, h.symm⟩
    · exact absurd h (by simp)

/-- If the identifier rule matches a lexeme consisting entirely of word
characters, then that very lexeme also passes the whole-word matcher with
empty left context at the same position. -/
theorem kwMatch_of_ident {s l : List Char} (h : matchIdent s = some l)
    (hall : l.all isWordChar = true) : kwMatch l none s = some l := by
  obtain ⟨c, rest, rfl, hc, rfl⟩ := matchIdent_some h
  have h1 : (c :: rest.takeWhile isWordChar).isPrefixOf (c :: rest) = true := by
    rw [ List.isPrefixOf_iff_prefix]
    exact ⟨rest.dropWhile isWordChar, by
      rw [List.cons_append, List.takeWhile_append_dropWhile]⟩
  have hallc : isWordChar c = true := by
    simp only [List.all_cons, Bool.and_eq_true] at hall
    exact hall.1
  have h2 : (isWordOpt none != isWordChar ((c :: rest.takeWhile isWordChar).headD ' ')) = true := by
    simp [isWordOpt, hallc]
  have hdrop : (c :: rest).drop (c :: rest.takeWhile isWordChar).length =
      rest.dropWhile isWordChar := by
    simp only [List.length_cons, List.drop_succ_cons]
    exact drop_takeWhile_len isWordChar rest
  have hlast : isWordChar ((c :: rest.takeWhile isWordChar).getLastD ' ') = true :=
    getLastD_all _ ' ' (by simp) hall
  have h3 : (isWordChar ((c :: rest.takeWhile isWordChar).getLastD ' ') !=
      isWordOpt (((c :: rest).drop (c :: rest.takeWhile isWordChar).length).head?)) = true := by
    rw [hdrop, hlast]
    cases hh : (rest.dropWhile isWordChar).head? with
    | none => simp [isWordOpt]
    | some d =>
      have hd := head_dropWhile_false isWordChar rest d hh
      simp [isWordOpt, hd]
  unfold kwMatch
  rw [h1, h2, h3]
  simp

set_option maxHeartbeats 2000000 in
/-- The lexeme of an identifier match taken by the table with empty left
context is never a reserved word: every reserved word would have been
captured by its own earlier whole-word rule, and a lexeme beginning with
a hash character cannot be produced by the identifier rule at all. -/
theorem ident_lexeme_not_kw : ∀ (s l : List Char),
    findMatch patterns none s = some (Rule.ident, l) → checkKeyword l = none := by
  intro s l h
  have hmem := findMatch_mem patterns none s Rule.ident l h
  have hident : matchIdent s = some l := hmem.2
  have hprior := findMatch_prior_none preRules Rule.ident none s l ident_not_mem_preRules h
  cases hck : checkKeyword l with
  | none => rfl
  | some k =>
    exfalso
    have hkwcase : ∀ (tt : TokenType) (w : List Char), Rule.kw tt w ∈ preRules →
        l = w → w.all isWordChar = true → False := by
      intro tt w hmem2 hlw hwall
      subst hlw
      have hkw := kwMatch_of_ident hident hwall
      have hnone := hprior (Rule.kw tt l) hmem2
      rw [show matchRule (Rule.kw tt l) none s = kwMatch l none s from rfl, hkw] at hnone
      exact Option.noConfusion hnone
    have hhash : ∀ (w : List Char), l = w → w.headD ' ' = '#' → False := by
      intro w hlw hw
      obtain ⟨c, rest, hs, hc, hl⟩ := matchIdent_some hident
      have hch : c = '#' := by
        have : l.headD ' ' = c := by rw [hl]; rfl
        rw [hlw, hw] at this
        exact this.symm
      rw [hch] at hc
      exact absurd hc (by decide)
    unfold checkKeyword at hck
    split_ifs at hck with g1 g2 g3 g4 g5 g6 g7 g8 g9 g10 g11 g12
    · exact hkwcase .Int "int".toList (by decide) g1 (by decide)
    · exact hkwcase .Float "float".toList (by decide) g2 (by decide)
    · exact hkwcase .Char "char".toList (by decide) g3 (by decide)
    · exact hkwcase .Bool "bool".toList (by decide) g4 (by decide)
    · exact hkwcase .String "string".toList (by decide) g5 (by decide)
    · exact hkwcase .If "if".toList (by decide) g6 (by decide)
    · exact hkwcase .Else "else".toList (by decide) g7 (by decide)
    · exact hkwcase .While "while".toList (by decide) g8 (by decide)
    · exact hkwcase .For "for".toList (by decide) g9 (by decide)
    · exact hkwcase .Return "return".toList (by decide) g10 (by decide)
    · exact hhash "#include".toList g11 (by decide)
    · exact hhash "#define".toList g12 (by decide)

/-- For any match delivered by the table with empty left context, the
handler with the reserved-word re-check and the handler without it agree. -/
theorem applyMatch_eq_NR {st : Lexer} {r : Rule} {l : List Char} {s : List Char}
    (hfm : findMatch patterns none s = some (r, l)) :
    applyMatch st r l = applyMatchNR st r l := by
  by_cases hid : ruleType r = TokenType.Identifier
  · have hr := (findMatch_mem patterns none s r l hfm).1
    have hri : r = Rule.ident := patterns_ident_unique r hr hid
    subst hri
    have hck := ident_lexeme_not_kw s l hfm
    unfold applyMatch applyMatchNR classifySt classifyStNR
    rw [hck]
  · unfold applyMatch applyMatchNR classifySt classifyStNR
    rw [if_neg hid, if_neg hid]

/-- The scanning loop is unchanged by removing the re-check. -/
theorem loop_recheck_eq : ∀ (f : Nat) (st : Lexer),
    lexLoopG applyMatch (fun _ => none) f st =
      lexLoopG applyMatchNR (fun _ => none) f st := by
  intro f
  induction f with
  | zero => intro st; rfl
  | succ f ih =>
    intro st
    rw [lexLoopG, lexLoopG]
    by_cases hp : st.position < st.source.length
    · rw [if_pos hp, if_pos hp]
      cases hsw : skipWs (st.source.length - st.position + 1) st with
      | none => rfl
      | some st1 =>
        dsimp only
        by_cases hq : st1.position < st1.source.length
        · rw [if_pos hq, if_pos hq]
          cases hfm : findMatch patterns none (st1.source.drop st1.position) with
          | none => rfl
          | some rl =>
            dsimp only
            rw [applyMatch_eq_NR hfm]
            exact ih _
        · rw [if_neg hq, if_neg hq]
    · rw [if_neg hp, if_neg hp]

/-- On success, the token list is a run of non-terminal tokens followed by
exactly one terminal token. -/
theorem loop_ok_shape (pv : Lexer → Option Char) :
    ∀ (f : Nat) (st st2 : Lexer), lexLoopG applyMatch pv f st = (st2, Outcome.ok) →
    (∀ t ∈ st.tokens, t.token_type ≠ TokenType.EOF) →
    ∃ pre ln cl, st2.tokens = pre ++ [⟨TokenType.EOF, "EOF", ln, cl⟩] ∧
      ∀ t ∈ pre, t.token_type ≠ TokenType.EOF := by
  intro f
  induction f with
  | zero =>
    intro st st2 h hinv
    rw [lexLoopG] at h
    injection h with h1 h2
    exact Outcome.noConfusion h2
  | succ f ih =>
    intro st st2 h hinv
    rw [lexLoopG] at h
    by_cases hp : st.position < st.source.length
    · rw [if_pos hp] at h
      cases hsw : skipWs (st.source.length - st.position + 1) st with
      | none =>
        rw [hsw] at h
        injection h with h1 h2
        exact Outcome.noConfusion h2
      | some st1 =>
        rw [hsw] at h
        dsimp only at h
        have hf := skipWs_spec _ _ _ hsw
        by_cases hq : st1.position < st1.source.length
        · rw [if_pos hq] at h
          cases hfm : findMatch patterns (pv st1) (st1.source.drop st1.position) with
          | none =>
            rw [hfm] at h
            dsimp only at h
            cases hg : st1.source.get? st1.position with
            | none =>
              rw [hg] at h
              injection h with h1 h2
              exact Outcome.noConfusion h2
            | some ch =>
              rw [hg] at h
              injection h with h1 h2
              exact Outcome.noConfusion h2
          | some rl =>
            rw [hfm] at h
            dsimp only at h
            apply ih _ _ h
            intro t ht
            have hmem := findMatch_mem patterns (pv st1) (st1.source.drop st1.position)
              rl.1 rl.2 (by rw [hfm])
            rcases applyMatch_tokens_sub st1 rl.1 rl.2 with htk | htk
            · rw [htk, hf.2.1] at ht
              exact hinv t ht
            · rw [htk] at ht
              rcases List.mem_append.mp ht with h1 | h1
              · rw [hf.2.1] at h1
                exact hinv t h1
              · have ht2 : t = ⟨(classifySt st1 rl.1 rl.2).1, rl.2.asString, st1.line, st1.column⟩ := by
                  simpa using h1
                rw [ht2]
                exact classifySt_fst_ne_eof st1 rl.1 rl.2 (patterns_ne_eof rl.1 hmem.1)
        · rw [if_neg hq] at h
          unfold pushEOF at h
          injection h with h1 h2
          subst h1
          refine ⟨st1.tokens, st1.line, st1.column, by simp, ?_⟩
          intro t ht
          rw [hf.2.1] at ht
          exact hinv t ht
    · rw [if_neg hp] at h
      unfold pushEOF at h
      injection h with h1 h2
      subst h1
      exact ⟨st.tokens, st.line, st.column, by simp, hinv⟩

/-- On failure, the token list still holds no terminal token: the run
never got to append the sentinel. -/
theorem loop_err_inv (pv : Lexer → Option Char) :
    ∀ (f : Nat) (st st2 : Lexer) (e : LexError),
    lexLoopG applyMatch pv f st = (st2, Outcome.err e) →
    (∀ t ∈ st.tokens, t.token_type ≠ TokenType.EOF) →
    ∀ t ∈ st2.tokens, t.token_type ≠ TokenType.EOF := by
  intro f
  induction f with
  | zero =>
    intro st st2 e h hinv
    rw [lexLoopG] at h
    injection h with h1 h2
    exact Outcome.noConfusion h2
  | succ f ih =>
    intro st st2 e h hinv
    rw [lexLoopG] at h
    by_cases hp : st.position < st.source.length
    · rw [if_pos hp] at h
      cases hsw : skipWs (st.source.length - st.position + 1) st with
      | none =>
        rw [hsw] at h
        injection h with h1 h2
        exact Outcome.noConfusion h2
      | some st1 =>
        rw [hsw] at h
        dsimp only at h
        have hf := skipWs_spec _ _ _ hsw
        by_cases hq : st1.position < st1.source.length
        · rw [if_pos hq] at h
          cases hfm : findMatch patterns (pv st1) (st1.source.drop st1.position) with
          | none =>
            rw [hfm] at h
            dsimp only at h
            cases hg : st1.source.get? st1.position with
            | none =>
              rw [hg] at h
              injection h with h1 h2
              exact Outcome.noConfusion h2
            | some ch =>
              rw [hg] at h
              injection h with h1 h2
              subst h1
              intro t ht
              rw [hf.2.1] at ht
              exact hinv t ht
          | some rl =>
            rw [hfm] at h
            dsimp only at h
            apply ih _ _ _ h
            intro t ht
            have hmem := findMatch_mem patterns (pv st1) (st1.source.drop st1.position)
              rl.1 rl.2 (by rw [hfm])
            rcases applyMatch_tokens_sub st1 rl.1 rl.2 with htk | htk
            · rw [htk, hf.2.1] at ht
              exact hinv t ht
            · rw [htk] at ht
              rcases List.mem_append.mp ht with h1 | h1
              · rw [hf.2.1] at h1
                exact hinv t h1
              · have ht2 : t = ⟨(classifySt st1 rl.1 rl.2).1, rl.2.asString, st1.line, st1.column⟩ := by
                  simpa using h1
                rw [ht2]
                exact classifySt_fst_ne_eof st1 rl.1 rl.2 (patterns_ne_eof rl.1 hmem.1)
        · rw [if_neg hq] at h
          unfold pushEOF at h
          injection h with h1 h2
          exact Outcome.noConfusion h2
    · rw [if_neg hp] at h
      unfold pushEOF at h
      injection h with h1 h2
      exact Outcome.noConfusion h2

/-- With fuel exceeding the remaining character count the loop can neither
exhaust its fuel nor hit a panic: every accepted lexeme is nonempty, so the
cursor strictly advances, and both unwrap sites are guarded by the bounds
check of the loop. -/
theorem loop_no_bad (pv : Lexer → Option Char) :
    ∀ (f : Nat) (st : Lexer), st.source.length - st.position < f →
    (lexLoopG applyMatch pv f st).2 ≠ Outcome.panicked ∧
    (lexLoopG applyMatch pv f st).2 ≠ Outcome.fuelOut := by
  intro f
  induction f with
  | zero => intro st h; omega
  | succ f ih =>
    intro st h
    rw [lexLoopG]
    by_cases hp : st.position < st.source.length
    · rw [if_pos hp]
      obtain ⟨st1, hsw⟩ := skipWs_some (st.source.length - st.position + 1) st (by omega)
      rw [hsw]
      dsimp only
      have hf := skipWs_spec _ _ _ hsw
      by_cases hq : st1.position < st1.source.length
      · rw [if_pos hq]
        cases hfm : findMatch patterns (pv st1) (st1.source.drop st1.position) with
        | none =>
          dsimp only
          cases hg : st1.source.get? st1.position with
          | none => exact absurd (List.get?_eq_none.mp hg) (by omega)
          | some ch =>
            exact ⟨fun hc => Outcome.noConfusion hc, fun hc => Outcome.noConfusion hc⟩
        | some rl =>
          dsimp only
          apply ih
          have hmem := findMatch_mem patterns (pv st1) (st1.source.drop st1.position)
            rl.1 rl.2 (by rw [hfm])
          have happ := applyMatch_fields st1 rl.1 rl.2
          have hlen : rl.2 ≠ [] := matchRule_ne_nil rl.1 hmem.1 _ _ _ hmem.2
          have hone : 1 ≤ rl.2.length := by
            cases hrl : rl.2 with
            | nil => exact absurd hrl hlen
            | cons a as => simp
          rw [happ.1, happ.2, hf.1]
          have hpos := hf.2.2.2.2.2
          have hsrc : st1.source.length = st.source.length := by rw [hf.1]
          omega
      · rw [if_neg hq]
        unfold pushEOF
        exact ⟨fun hc => Outcome.noConfusion hc, fun hc => Outcome.noConfusion hc⟩
    · rw [if_neg hp]
      unfold pushEOF
      exact ⟨fun hc => Outcome.noConfusion hc, fun hc => Outcome.noConfusion hc⟩

/-- Claim C7: on every successful run, the last token is the terminal
kind with the fixed sentinel lexeme, and the terminal kind occurs exactly
once in the whole sequence. -/
theorem claim7_eof : ∀ (src : String) (st : Lexer), tokenize src = (st, Outcome.ok) →
    (∃ ln cl, st.tokens.getLast? = some ⟨TokenType.EOF, "EOF", ln, cl⟩) ∧
    st.tokens.countP isEOFTok = 1 := by
  intro src st h
  unfold tokenize at h
  obtain ⟨pre, ln, cl, htk, hpre⟩ :=
    loop_ok_shape (fun _ => none) (src.toList.length + 1) (initLexer src) st h
      (by intro t ht; exact absurd ht (by simp [initLexer]))
  constructor
  · exact ⟨ln, cl, by rw [htk]; exact List.getLast?_concat _⟩
  · rw [htk, List.countP_append]
    have h0 : pre.countP isEOFTok = 0 := by
      rw [List.countP_eq_zero]
      intro t ht
      simp only [isEOFTok, beq_iff_eq]
      exact hpre t ht
    rw [h0]
    simp [List.countP_cons, isEOFTok]

/-- Claim C7, witness at the empty source. -/
theorem claim7_witness : (tokenize "").1.tokens.countP isEOFTok = 1 :=
  (claim7_eof "" (tokenize "").1 rfl).2

/-- Claim C2, amended: a failed run yields exactly one diagnostic and no
completed token sequence, in the sense that the terminal sentinel is never
appended; but the tokens and symbols accumulated before the error remain
in the lexer and are exposed by the accessors, as the concrete failed run
on the text x at y shows. -/
theorem claim2_amended :
    (∀ (src : String) (st : Lexer) (e : LexError),
      tokenize src = (st, Outcome.err e) → st.tokens.countP isEOFTok = 0) ∧
    getTokens (tokenize "x @ y;").1 = [⟨TokenType.Identifier, "x", 1, 1⟩] ∧
    getSymbols (tokenize "x @ y;").1 = [⟨"x", "variable", "unknown", "global", 1⟩] := by
  refine ⟨?_, rfl, rfl⟩
  intro src st e h
  unfold tokenize at h
  have hinv := loop_err_inv (fun _ => none) (src.toList.length + 1) (initLexer src) st e h
    (by intro t ht; exact absurd ht (by simp [initLexer]))
  rw [List.countP_eq_zero]
  intro t ht
  simp only [isEOFTok, beq_iff_eq]
  exact hinv t ht

/-- Claim C2, witness: the failed run on the text x at y has no terminal
token. -/
theorem claim2_witness : (tokenize "x @ y;").1.tokens.countP isEOFTok = 0 :=
  claim2_amended.1 "x @ y;" (tokenize "x @ y;").1 ⟨'@', 1, 3⟩ rfl

/-- Claim C9: the reserved-word re-check is not load-bearing.  A lexeme
taken by the identifier rule is never a reserved word, and the whole run
of the lexer is unchanged when the re-check branch is removed. -/
theorem claim9_recheck :
    (∀ (s l : List Char), findMatch patterns none s = some (Rule.ident, l) →
      checkKeyword l = none) ∧
    ∀ (src : String), tokenize src = tokenizeNoRecheck src := by
  constructor
  · exact ident_lexeme_not_kw
  · intro src
    unfold tokenize tokenizeNoRecheck
    exact loop_recheck_eq (src.toList.length + 1) (initLexer src)

/-- Claim C9, witness: a concrete identifier match whose lexeme passes
the reserved-word check negatively. -/
theorem claim9_witness : checkKeyword "abc".toList = none :=
  claim9_recheck.1 "abc".toList "abc".toList (by decide)

/-- Claim C10: on ASCII source text the run always terminates with a
success or a single lexical error; the fuel of the embedding never runs
out and neither unwrap site panics.  In this embedding the single cursor
indexes characters, which agrees with the byte offset used by the Rust
code exactly on ASCII input. -/
theorem claim10_total : ∀ (src : String), (∀ c ∈ src.toList, c.toNat < 128) →
    (tokenize src).2 ≠ Outcome.panicked ∧ (tokenize src).2 ≠ Outcome.fuelOut := by
  intro src hascii
  unfold tokenize
  exact loop_no_bad (fun _ => none) (src.toList.length + 1) (initLexer src)
    (by simp [initLexer])

/-- Claim C10, witness at a concrete ASCII source. -/
theorem claim10_witness :
    (tokenize "int x;").2 ≠ Outcome.panicked ∧ (tokenize "int x;").2 ≠ Outcome.fuelOut :=
  claim10_total "int x;" (by decide)

end MCPP
